import Mathlib

/-!
Verification of the catalog lookup utilities (`src/internal/utils.ts`).

The module is embedded shallowly:

* the filesystem is made explicit as an association list `FS` of
  `(path, content)` pairs; absent paths read as the empty string (every file
  read performed by the embedded functions goes through paths produced by
  `getFiles`, which exist in the `FS`);
* the JavaScript regular expressions built by `searchFilesForId` are modelled
  by a small matcher (`matchSeq`) over the node alphabet those two patterns
  use (`^`, `$`, literal characters, `.`, `\s*`, and the optional
  quote/folded-scalar groups, expanded into explicit alternatives); the
  interpolated `id`/`version` strings are compiled character by character,
  with `.`, `^` and `$` keeping their metacharacter meaning, exactly as the
  source interpolates them unescaped;
* the external `glob` call is modelled by segment-wise glob matching with
  `*`, `?` and `**`, and the `ignore: 'node_modules/**'` option by filtering
  out the paths matched by that ignore pattern;
* the external `semver` library (`valid`, `validRange`, `satisfies`) is
  modelled for the shapes exercised here: plain `x.y.z` versions and caret
  ranges `^x.y.z` with nonzero major;
* the external `gray-matter` parser is modelled by extracting the `version:`
  line of a leading `---`-delimited front-matter block;
* `String.prototype.localeCompare` ordering is modelled as code-point
  lexicographic comparison, and `Array.prototype.sort` as a stable insertion
  sort;
* a falsy version argument (JavaScript `undefined` or the empty string) is
  detected by `isFalsy`, mirroring the `!version` and `version &&` tests of
  the source.
-/

/-! ## Characters and strings -/

def nlChar : Char := Char.ofNat 10

def quoteS : Char := Char.ofNat 39

def quoteD : Char := Char.ofNat 34

def isWs (c : Char) : Bool :=
  c == ' ' || c == nlChar || c == Char.ofNat 9 || c == Char.ofNat 13 ||
    c == Char.ofNat 12 || c == Char.ofNat 11

def splitOnCharAux (sep : Char) : List Char → List Char → List (List Char)
  | [], acc => [acc.reverse]
  | c :: cs, acc =>
    if c == sep then acc.reverse :: splitOnCharAux sep cs []
    else splitOnCharAux sep cs (c :: acc)

def splitOnChar (sep : Char) (l : List Char) : List (List Char) :=
  splitOnCharAux sep l []

def splitSegs (s : String) : List String :=
  (splitOnChar '/' s.toList).map String.mk

def isPre : List Char → List Char → Bool
  | [], _ => true
  | _ :: _, [] => false
  | a :: as, b :: bs => a == b && isPre as bs

def containsSub (haystack needle : List Char) : Bool :=
  match haystack with
  | [] => needle.isEmpty
  | h :: t => isPre needle (h :: t) || containsSub t needle

/-- `path.includes(sub)`. -/
def strContains (s sub : String) : Bool :=
  containsSub s.toList sub.toList

def charsLe : List Char → List Char → Bool
  | [], _ => true
  | _ :: _, [] => false
  | a :: as, b :: bs =>
    if a.toNat = b.toNat then charsLe as bs else decide (a.toNat < b.toNat)

def strLe (a b : String) : Bool := charsLe a.toList b.toList

def pathUnder (dir p : String) : Bool :=
  isPre (dir.toList ++ ['/']) p.toList

def relBelow (dir p : String) : String :=
  String.mk (p.toList.drop (dir.toList.length + 1))

def trimChars (l : List Char) : List Char :=
  ((l.dropWhile isWs).reverse.dropWhile isWs).reverse

def stripQuotes (l : List Char) : List Char :=
  match l with
  | [] => []
  | c :: rest =>
    if (c == quoteS || c == quoteD) && rest.getLast? == some c then rest.dropLast
    else c :: rest

/-! ## A matcher for the regular expressions built by `searchFilesForId`

The two patterns of the source are alternation-free apart from the optional
groups `(['"]|>-)?` and `['"]?`; those are expanded into explicit lists of
alternative node sequences, so a node is a literal, `.`, a multiline anchor
`^` or `$`, or `\s*`. -/

inductive RNode where
  | lit (c : Char)
  | dot
  | caret
  | dollar
  | wsStar
deriving DecidableEq, Repr

/-- The positions reachable from `(prev, rest)` by consuming leading
whitespace characters: the states `\s*` can stop at. -/
def wsPositions (prev : Option Char) (rest : List Char) : List (Option Char × List Char) :=
  (prev, rest) ::
    (match rest with
     | [] => []
     | d :: rest2 => if isWs d then wsPositions (some d) rest2 else [])

/-- Matching a node sequence against the remaining input.  `prev` is the
character just before the current position (used by the multiline `^`
anchor), `none` at the start of the input. -/
def matchSeq : List RNode → Option Char → List Char → Bool
  | [], _, _ => true
  | RNode.caret :: ns2, prev, rest =>
    (match prev with
     | none => true
     | some c => c == nlChar) && matchSeq ns2 prev rest
  | RNode.dollar :: ns2, prev, rest =>
    (match rest with
     | [] => true
     | c :: _ => c == nlChar) && matchSeq ns2 prev rest
  | RNode.lit c :: ns2, _, rest =>
    (match rest with
     | [] => false
     | d :: rest2 => c == d && matchSeq ns2 (some d) rest2)
  | RNode.dot :: ns2, _, rest =>
    (match rest with
     | [] => false
     | d :: rest2 => !(d == nlChar) && matchSeq ns2 (some d) rest2)
  | RNode.wsStar :: ns2, prev, rest =>
    (wsPositions prev rest).any (fun pr => matchSeq ns2 pr.1 pr.2)

/-- A match may start at any position of the input, as with
`String.prototype.match`. -/
def searchFrom (ns : List RNode) (prev : Option Char) (rest : List Char) : Bool :=
  matchSeq ns prev rest ||
    (match rest with
     | [] => false
     | c :: rest2 => searchFrom ns (some c) rest2)

/-- `content.match(re) !== null`, for a regex given as a list of alternative
node sequences. -/
def reTest (alts : List (List RNode)) (s : String) : Bool :=
  alts.any (fun ns => searchFrom ns none s.toList)

/-- Compilation of the interpolated `id`/`version` string: the source splices
it into the pattern unescaped, so `.`, `^` and `$` keep their metacharacter
meaning.  (The model covers interpolated strings without quantifier, class,
group or escape metacharacters, which is every string exercised below.) -/
def compileChars : List Char → List RNode
  | [] => []
  | c :: cs =>
    (if c == '.' then RNode.dot
     else if c == '^' then RNode.caret
     else if c == '$' then RNode.dollar
     else RNode.lit c) :: compileChars cs

def litNodes (l : List Char) : List RNode := l.map RNode.lit

/-- The alternatives of the optional group `(['"]|>-)?`. -/
def idGroupAlts : List (List RNode) :=
  [[], [RNode.lit quoteS], [RNode.lit quoteD], [RNode.lit '>', RNode.lit '-']]

/-- The alternatives of the optional class `['"]?`. -/
def quoteAlts : List (List RNode) :=
  [[], [RNode.lit quoteS], [RNode.lit quoteD]]

/-- The regex `^id:\s*(['"]|>-)?\s*${id}['"]?\s*$` (flag `m`), with the two
optional groups expanded into alternatives. -/
def mkIdRegex (idv : String) : List (List RNode) :=
  idGroupAlts.flatMap (fun g =>
    quoteAlts.map (fun q =>
      [RNode.caret] ++ litNodes ['i', 'd', ':'] ++ [RNode.wsStar] ++ g ++
        [RNode.wsStar] ++ compileChars idv.toList ++ q ++ [RNode.wsStar, RNode.dollar]))

/-- The regex `^version:\s*['"]?${version}['"]?\s*$` (flag `m`), with the two
optional quotes expanded into alternatives. -/
def mkVersionRegex (v : String) : List (List RNode) :=
  quoteAlts.flatMap (fun q1 =>
    quoteAlts.map (fun q2 =>
      [RNode.caret] ++ litNodes ['v', 'e', 'r', 's', 'i', 'o', 'n', ':'] ++
        [RNode.wsStar] ++ q1 ++ compileChars v.toList ++ q2 ++
        [RNode.wsStar, RNode.dollar]))

/-! ## The filesystem model -/

/-- A filesystem: an association list of `(path, content)` pairs.
Directories are implicit (a directory exists when some file lies under it). -/
abbrev FS : Type := List (String × String)

def lookupF : FS → String → Option String
  | [], _ => none
  | e :: rest, p => if e.1 == p then some e.2 else lookupF rest p

/-- `fs.readFile(path, 'utf-8')`; absent paths are modelled as empty content
(the code rejects there instead — every read performed below is of a path
returned by `getFiles`, which exists). -/
def readFile (fsys : FS) (p : String) : String :=
  (lookupF fsys p).getD ("")

/-! ## The glob model -/

/-- A list together with all of its suffixes (the states a wildcard can
stop at). -/
def suffixesFrom {α : Type} (s : List α) : List (List α) :=
  s ::
    (match s with
     | [] => []
     | _ :: t => suffixesFrom t)

/-- Matching one glob pattern segment against one path segment (`*` and `?`
wildcards, everything else literal). -/
def segMatch : List Char → List Char → Bool
  | [], s => s.isEmpty
  | c :: pr, s =>
    if c == '*' then (suffixesFrom s).any (fun s2 => segMatch pr s2)
    else if c == '?' then
      (match s with
       | [] => false
       | _ :: sr => segMatch pr sr)
    else
      (match s with
       | [] => false
       | d :: sr => c == d && segMatch pr sr)

def starStar : List Char := ['*', '*']

/-- Segment-wise glob matching; a `**` segment matches zero or more path
segments. -/
def globSegsMatch : List (List Char) → List (List Char) → Bool
  | [], ss => ss.isEmpty
  | p :: pr, ss =>
    if p == starStar then (suffixesFrom ss).any (fun ss2 => globSegsMatch pr ss2)
    else
      (match ss with
       | [] => false
       | s :: sr => segMatch p s && globSegsMatch pr sr)

def globMatch (pattern p : String) : Bool :=
  globSegsMatch (splitOnChar '/' pattern.toList) (splitOnChar '/' p.toList)

/-- `glob(pattern, { ignore: 'node_modules/**' })`: the paths of the
filesystem matching the pattern, minus those matched by the ignore pattern.
(The `try/catch` wrapper of the source only rewraps a rejection of `glob`
itself, which the total model does not produce.) -/
def getFiles (fsys : FS) (pattern : String) : List String :=
  (fsys.map (fun e => e.1)).filter
    (fun p => globMatch pattern p && !(globMatch ("node_modules/**") p))

/-! ## The semver model

Models the external `semver` package on the forms exercised by this
development: plain `x.y.z` versions, and ranges that are either a plain
version or a caret range `^x.y.z` with nonzero major. -/

def digitVal (c : Char) : Option Nat :=
  if 48 ≤ c.toNat && c.toNat ≤ 57 then some (c.toNat - 48) else none

def parseNatChars (l : List Char) : Option Nat :=
  match l with
  | [] => none
  | _ =>
    if l.all (fun c => (digitVal c).isSome) then
      some (l.foldl (fun acc c => acc * 10 + (digitVal c).getD 0) 0)
    else none

def parseVersionChars (l : List Char) : Option (Nat × Nat × Nat) :=
  match splitOnChar '.' l with
  | [a, b, c] =>
    match parseNatChars a, parseNatChars b, parseNatChars c with
    | some x, some y, some z => some (x, y, z)
    | _, _, _ => none
  | _ => none

/-- `semver.valid(v) !== null`. -/
def semverValid (v : String) : Bool :=
  (parseVersionChars v.toList).isSome

def parseRangeChars (l : List Char) : Option (Bool × Nat × Nat × Nat) :=
  match l with
  | '^' :: rest => (parseVersionChars rest).map (fun t => (true, t.1, t.2.1, t.2.2))
  | _ => (parseVersionChars l).map (fun t => (false, t.1, t.2.1, t.2.2))

/-- `semver.validRange(v) !== null`. -/
def semverValidRange (v : String) : Bool :=
  (parseRangeChars v.toList).isSome

def verLt (a b : Nat × Nat × Nat) : Bool :=
  decide (a.1 < b.1) ||
    (a.1 == b.1 && (decide (a.2.1 < b.2.1) || (a.2.1 == b.2.1 && decide (a.2.2 < b.2.2))))

/-- `semver.satisfies(ver, range)`: equality for a plain-version range, and
for `^x.y.z` (nonzero major) same major and at least `x.y.z`. -/
def semverSatisfies (ver range : String) : Bool :=
  match parseVersionChars ver.toList, parseRangeChars range.toList with
  | some a, some (isCaret, x, y, z) =>
    if isCaret then a.1 == x && (a == (x, y, z) || verLt (x, y, z) a)
    else a == (x, y, z)
  | _, _ => false

/-! ## The gray-matter model

Models `matter.read(path).data.version`: the `version:` line of a leading
`---`-delimited front-matter block, trimmed, surrounding quotes stripped.
A document without such a line is modelled with version `""`. -/

def fmDelim : List Char := ['-', '-', '-']

def fmLines (content : String) : List (List Char) :=
  match splitOnChar nlChar content.toList with
  | [] => []
  | l0 :: rest =>
    if l0 == fmDelim then rest.takeWhile (fun l => !(l == fmDelim)) else []

def versionKey : List Char := ['v', 'e', 'r', 's', 'i', 'o', 'n', ':']

def lineVersionValue (l : List Char) : Option (List Char) :=
  if isPre versionKey l then some (stripQuotes (trimChars (l.drop versionKey.length)))
  else none

def matterVersion (content : String) : String :=
  match (fmLines content).filterMap lineVersionValue with
  | [] => String.mk []
  | v :: _ => String.mk v

def fmHasVersion (content : String) : Bool :=
  !((fmLines content).filterMap lineVersionValue).isEmpty

/-! ## The embedded source functions -/

/-- A falsy version argument: JavaScript `undefined` (here `none`) or the
empty string, as tested by `!version` and `version && ...` in the source. -/
def isFalsy : Option String → Bool
  | none => true
  | some s => s == ""

/-- `searchFilesForId(files, id, version?)`. -/
def searchFilesForId (fsys : FS) (files : List String) (idv : String)
    (version : Option String) : List String :=
  let idRegex := mkIdRegex idv
  let versionRegex := mkVersionRegex (version.getD ("undefined"))
  let ms := files.map (fun file =>
    let content := readFile fsys file
    let hasIdMatch := reTest idRegex content
    if !(isFalsy version) && !(reTest versionRegex content) then none
    else if hasIdMatch then some file
    else none)
  (ms.filter (fun m => m.isSome)).filterMap (fun m => m)

/-- `versionExists(catalogDir, id, version)`. -/
def versionExists (fsys : FS) (catalogDir idv v : String) : Bool :=
  let files := getFiles fsys (catalogDir ++ "/**/index.md")
  let matchedFiles := searchFilesForId fsys files idv (some v)
  decide (0 < matchedFiles.length)

/-- The candidate set of `findFileById`: all `index.md` files under the
catalog directory whose content matches the id pattern. -/
def candidateFiles (fsys : FS) (catalogDir idv : String) : List String :=
  searchFilesForId fsys (getFiles fsys (catalogDir ++ "/**/index.md")) idv none

/-- A candidate parsed by gray-matter: its front-matter `version` together
with its path. -/
structure ParsedFile where
  version : String
  path : String
deriving DecidableEq, Repr

def parsedCandidates (fsys : FS) (catalogDir idv : String) : List ParsedFile :=
  (candidateFiles fsys catalogDir idv).map
    (fun p => { version := matterVersion (readFile fsys p), path := p })

/-- The comparator `(a, b) => a.version.localeCompare(b.version)`, modelled
as code-point lexicographic comparison. -/
def leVer (a b : ParsedFile) : Bool := strLe a.version b.version

def insertLe (le : α → α → Bool) (a : α) : List α → List α
  | [] => [a]
  | b :: bs => if le b a then b :: insertLe le a bs else a :: b :: bs

/-- `Array.prototype.sort` (stable, ascending by the comparator), modelled as
a stable insertion sort. -/
def sortByLe (le : α → α → Bool) (l : List α) : List α :=
  l.foldl (fun acc a => insertLe le a acc) []

/-- `findFileById(catalogDir, id, version?)`. -/
def findFileById (fsys : FS) (catalogDir idv : String) (version : Option String) :
    Option String :=
  let matchedFiles := candidateFiles fsys catalogDir idv
  let latestVersion := matchedFiles.find? (fun p => !(strContains p ("versioned")))
  if isFalsy version then latestVersion
  else
    let v := version.getD ("")
    let parsedFiles := parsedCandidates fsys catalogDir idv
    if semverValidRange v && semverValid v then
      ((parsedFiles.filter (fun c => semverSatisfies c.version v)).head?).map
        (fun c => c.path)
    else
      ((sortByLe leVer parsedFiles).getLast?).map (fun c => c.path)

/-- `copy(src, dst, { overwrite: true })` from fs-extra without a filter:
every file under `src` reappears under `dst` with the same relative path,
overwriting same-path files; everything else is kept. -/
def copyTree (fsys : FS) (src dst : String) : FS :=
  let copied := ((fsys.filter (fun e => pathUnder src e.1)).map
    (fun e => (dst ++ "/" ++ relBelow src e.1, e.2)) : FS)
  copied ++ fsys.filter (fun e => !(copied.any (fun c2 => c2.1 == e.1)))

/-- `fs.rm(dir, { recursive: true })`. -/
def rmTree (fsys : FS) (dir : String) : FS :=
  fsys.filter (fun e => !(pathUnder dir e.1))

/-- `copyDir(catalogDir, source, target)` without a filter: copy `source`
into the staging directory `catalogDir/tmp`, copy the staging directory into
`target`, remove the staging directory.  (`join(catalogDir, 'tmp')` is
modelled as `catalogDir ++ "/tmp"`; `mkdir` is a no-op in the file-map
model, where directories are implicit.) -/
def copyDir (fsys : FS) (catalogDir source target : String) : FS :=
  let tmpDirectory := catalogDir ++ "/tmp"
  let f1 := copyTree fsys source tmpDirectory
  let f2 := copyTree f1 tmpDirectory target
  rmTree f2 tmpDirectory

/-- A sends/receives message reference. -/
structure Message where
  id : String
  version : String
deriving DecidableEq, Repr

/-- The composite key `${id}-${version}`. -/
def msgKey (m : Message) : String := m.id ++ "-" ++ m.version

def uniqueMessagesAux : List String → List Message → List Message
  | _, [] => []
  | seen, m :: ms =>
    if seen.contains (msgKey m) then uniqueMessagesAux seen ms
    else m :: uniqueMessagesAux (msgKey m :: seen) ms

/-- `uniqueMessages(messages)`. -/
def uniqueMessages (messages : List Message) : List Message :=
  uniqueMessagesAux [] messages

/-- Modelled from the spec: keep only the first occurrence of each composite
key, preserving the relative order of kept elements (the MessageDeduper
description, stated independently of the seen-set implementation). -/
def firstOccurrenceDedup : List Message → List Message
  | [] => []
  | m :: ms =>
    m :: firstOccurrenceDedup (ms.filter (fun x => !(msgKey x == msgKey m)))
termination_by l => l.length
decreasing_by
  simp only [List.length_cons]
  exact Nat.lt_succ_of_le (List.length_filter_le _ _)

/-! ## Concrete catalogs used below -/

/-- Two candidates with semver versions `1.2.0` and `2.0.0`. -/
def semverFs : FS :=
  [("dom/a/index.md", "---\nid: order\nversion: 1.2.0\n---\n"),
   ("dom/b/index.md", "---\nid: order\nversion: 2.0.0\n---\n")]

/-- Two candidates with non-semver versions `a-draft` and `b-draft`. -/
def draftFs : FS :=
  [("dom/a/index.md", "---\nid: order\nversion: a-draft\n---\n"),
   ("dom/b/index.md", "---\nid: order\nversion: b-draft\n---\n")]

/-- One candidate whose path contains `versioned` as a substring but not as a
path segment. -/
def substrFs : FS :=
  [("cat/my-versioned/index.md", "---\nid: order\nversion: 1.0.0\n---\n")]

/-- A versioned snapshot first, the canonical copy second. -/
def latestFs : FS :=
  [("cat/versioned/index.md", "---\nid: order\nversion: 0.1.0\n---\n"),
   ("cat/latest/index.md", "---\nid: order\nversion: 1.0.0\n---\n")]

/-- A file under a nested (non-top-level) `node_modules` directory. -/
def nestedFs : FS := [("a/node_modules/index.md", "x")]

/-- A file under a top-level `node_modules` directory. -/
def nmFs : FS := [("node_modules/a/index.md", "x")]

/-- A catalog file matching id `x` and one matching nothing relevant. -/
def smallFs : FS := [("f1", "id: x\nversion: 1"), ("f2", "id: x\nversion: 2")]

/-- A source tree plus a pre-existing file under the target directory. -/
def preTargetFs : FS := [("s/a", "x"), ("t/extra", "y")]

/-- A plain one-file source tree. -/
def oneFileFs : FS := [("s/a", "hello")]

/-! ## The filter characterization of `searchFilesForId` -/

/-- The inclusion predicate of `searchFilesForId`: the id pattern must match,
and, when a truthy version argument is supplied, the version pattern must
match too. -/
def includePred (fsys : FS) (idv : String) (ov : Option String) (f : String) : Bool :=
  (isFalsy ov || reTest (mkVersionRegex (ov.getD ("undefined"))) (readFile fsys f)) &&
    reTest (mkIdRegex idv) (readFile fsys f)

theorem filterMap_map_eq_filter {α : Type} (mf : α → Option α)
    (h : ∀ a, mf a = none ∨ mf a = some a) (l : List α) :
    ((l.map mf).filter (fun m => m.isSome)).filterMap (fun m => m) =
      l.filter (fun a => (mf a).isSome) := by
  induction l with
  | nil => rfl
  | cons a t ih =>
    rcases h a with ha | ha <;>
      simp [List.map_cons, List.filter_cons, ha, ih, List.filterMap_cons]

theorem searchFilesForId_eq_filter (fsys : FS) (files : List String) (idv : String)
    (ov : Option String) :
    searchFilesForId fsys files idv ov = files.filter (includePred fsys idv ov) := by
  unfold searchFilesForId
  rw [filterMap_map_eq_filter]
  · apply List.filter_congr
    intro f _
    cases hfal : isFalsy ov <;>
      cases hver : reTest (mkVersionRegex (ov.getD ("undefined"))) (readFile fsys f) <;>
        cases hid : reTest (mkIdRegex idv) (readFile fsys f) <;>
          simp [includePred, hfal, hver, hid]
  · intro a
    cases hfal : isFalsy ov <;>
      cases hver : reTest (mkVersionRegex (ov.getD ("undefined"))) (readFile fsys a) <;>
        cases hid : reTest (mkIdRegex idv) (readFile fsys a) <;>
          simp [hfal, hver, hid]

theorem decide_lt_length_filter_eq_any {α : Type} (p : α → Bool) (l : List α) :
    decide (0 < (l.filter p).length) = l.any p := by
  induction l with
  | nil => rfl
  | cons a t ih => cases h : p a <;> simp [List.filter_cons, h, ih]

theorem any_congr {α : Type} (l : List α) (p q : α → Bool) (h : ∀ a, p a = q a) :
    l.any p = l.any q := by
  induction l with
  | nil => rfl
  | cons a t ih => simp [List.any_cons, h a, ih]

/-! ## Claims C1, C2, C5, C9 -/

/-- Claim C1, counterexample: `versionExists` matches the version argument
literally (as a regex), not as a semver range.  The catalog holds a file with
front-matter version `1.2.0`, which satisfies the range `^1.0.0`, yet
`versionExists` with version `^1.0.0` returns `false` (the interpolated `^`
makes the version pattern unmatchable mid-line). -/
theorem claim_C1_counterexample :
    versionExists semverFs ("dom") ("order") ("^1.0.0") = false ∧
      matterVersion (readFile semverFs ("dom/a/index.md")) = ("1.2.0") ∧
      semverSatisfies ("1.2.0") ("^1.0.0") = true := by
  refine ⟨by decide, by decide, by decide⟩

/-- Claim C1 (amended): for a non-empty version argument, `versionExists`
returns true iff some located `index.md` file's content matches both the
version-line pattern built literally from the argument and the id pattern —
a literal textual version match, not semver-range satisfaction. -/
theorem claim_C1 (fsys : FS) (dir idv v : String) (hv : (v == "") = false) :
    versionExists fsys dir idv v =
      (getFiles fsys (dir ++ "/**/index.md")).any
        (fun f => reTest (mkVersionRegex v) (readFile fsys f) &&
          reTest (mkIdRegex idv) (readFile fsys f)) := by
  simp only [versionExists]
  rw [searchFilesForId_eq_filter, decide_lt_length_filter_eq_any]
  apply any_congr
  intro f
  simp [includePred, isFalsy, hv]

/-- Witness for C1's amended theorem at a concrete catalog and version. -/
theorem claim_C1_witness :
    versionExists semverFs ("dom") ("order") ("1.2.0") =
      (getFiles semverFs ("dom" ++ "/**/index.md")).any
        (fun f => reTest (mkVersionRegex ("1.2.0")) (readFile semverFs f) &&
          reTest (mkIdRegex ("order")) (readFile semverFs f)) :=
  claim_C1 semverFs ("dom") ("order") ("1.2.0") (by decide)

/-- Claim C2, counterexample: with version argument `^1.0.0` against
candidates A (`1.2.0`) and B (`2.0.0`), `findFileById` returns the path of
B, not of A, although A's version satisfies the range: `^1.0.0` is a valid
range but not a valid concrete version, so the range-filter branch is never
taken. -/
theorem claim_C2_counterexample :
    findFileById semverFs ("dom") ("order") (some ("^1.0.0")) = some ("dom/b/index.md") ∧
      matterVersion (readFile semverFs ("dom/a/index.md")) = ("1.2.0") ∧
      semverSatisfies ("1.2.0") ("^1.0.0") = true ∧
      ("dom/b/index.md" : String) ≠ ("dom/a/index.md") := by
  refine ⟨by decide, by decide, by decide, by decide⟩

/-- Claim C2 (amended): on this candidate set the resolver returns the path
of B — `^1.0.0` fails the `validRange && valid` test (it is not a valid
concrete version), so the lexicographic-latest fallback applies. -/
theorem claim_C2 :
    findFileById semverFs ("dom") ("order") (some ("^1.0.0")) = some ("dom/b/index.md") ∧
      (semverValidRange ("^1.0.0") && semverValid ("^1.0.0")) = false := by
  refine ⟨by decide, by decide⟩

/-- Claim C5: on readable files, `searchFilesForId` is exactly the filter of
the input list by "id pattern matches, and the version pattern matches too
when a truthy version argument is supplied", hence an order-preserving
subsequence of the input. -/
theorem claim_C5 (fsys : FS) (files : List String) (idv : String) (ov : Option String)
    (_hread : ∀ f ∈ files, (lookupF fsys f).isSome = true) :
    searchFilesForId fsys files idv ov = files.filter (includePred fsys idv ov) ∧
      List.Sublist (searchFilesForId fsys files idv ov) files := by
  refine ⟨searchFilesForId_eq_filter fsys files idv ov, ?_⟩
  rw [searchFilesForId_eq_filter]
  exact List.filter_sublist files

/-- Witness for C5 at a concrete file list: the file whose version line does
not match is excluded even though its id line matches. -/
theorem claim_C5_witness :
    searchFilesForId smallFs [("f1"), ("f2")] ("x") (some ("1")) =
      List.filter (includePred smallFs ("x") (some ("1"))) [("f1"), ("f2")] ∧
      List.Sublist (searchFilesForId smallFs [("f1"), ("f2")] ("x") (some ("1")))
        [("f1"), ("f2")] :=
  claim_C5 smallFs [("f1"), ("f2")] ("x") (some ("1")) (by decide)

/-- Claim C9: the id argument is interpolated into the regex without
escaping, so the requested id `a.c` (with `.` acting as a wildcard) matches
a file whose front-matter id line is `id: abc` — a different id string, and
`a.c` never occurs in the content. -/
theorem claim_C9 :
    searchFilesForId [("f", "id: abc")] [("f")] ("a.c") none = [("f")] ∧
      strContains ("id: abc") ("a.c") = false ∧
      ("a.c" : String) ≠ ("abc") := by
  refine ⟨by decide, by decide, by decide⟩

/-! ## Claims C6 and C10: `uniqueMessages` -/

theorem contains_cons_eq (s : List String) (a k : String) :
    (a :: s).contains k = ((k == a) || s.contains k) := by
  cases h : k == a <;> simp [List.contains, List.elem, h]

theorem uniqueMessagesAux_seen_congr (ms : List Message) :
    ∀ seen1 seen2 : List String,
      (∀ k, seen1.contains k = seen2.contains k) →
      uniqueMessagesAux seen1 ms = uniqueMessagesAux seen2 ms := by
  induction ms with
  | nil => intro seen1 seen2 _; rfl
  | cons m ms ih =>
    intro seen1 seen2 h
    simp only [uniqueMessagesAux]
    rw [h (msgKey m)]
    cases hc : seen2.contains (msgKey m)
    · simp only [Bool.false_eq_true, if_false]
      rw [ih (msgKey m :: seen1) (msgKey m :: seen2)
        (fun k => by rw [contains_cons_eq, contains_cons_eq, h k])]
    · simp only [if_true]
      exact ih seen1 seen2 h

theorem uniqueMessagesAux_seen_swap (ms : List Message) (a b : String)
    (seen : List String) :
    uniqueMessagesAux (a :: b :: seen) ms = uniqueMessagesAux (b :: a :: seen) ms := by
  apply uniqueMessagesAux_seen_congr
  intro k
  rw [contains_cons_eq, contains_cons_eq, contains_cons_eq, contains_cons_eq]
  cases k == a <;> cases k == b <;> simp

theorem uniqueMessagesAux_filter_seen (k : String) (ms : List Message) :
    ∀ seen : List String,
      uniqueMessagesAux (k :: seen) ms =
        uniqueMessagesAux seen (ms.filter (fun x => !(msgKey x == k))) := by
  induction ms with
  | nil => intro seen; rfl
  | cons m ms ih =>
    intro seen
    simp only [uniqueMessagesAux, List.filter_cons, contains_cons_eq]
    cases hk : msgKey m == k
    · simp only [Bool.false_or, Bool.not_false, if_true, uniqueMessagesAux]
      cases hc : seen.contains (msgKey m)
      · simp only [Bool.false_eq_true, if_false]
        rw [uniqueMessagesAux_seen_swap, ih (msgKey m :: seen)]
      · simp only [if_true]
        exact ih seen
    · simp only [Bool.true_or, Bool.not_true, Bool.false_eq_true, if_false, if_true]
      exact ih seen

theorem uniqueMessagesAux_nil_eq_firstOcc :
    ∀ (n : Nat) (ms : List Message), ms.length ≤ n →
      uniqueMessagesAux [] ms = firstOccurrenceDedup ms := by
  intro n
  induction n with
  | zero =>
    intro ms hms
    have : ms = [] := List.eq_nil_of_length_eq_zero (Nat.le_zero.mp hms)
    subst this
    simp [uniqueMessagesAux, firstOccurrenceDedup]
  | succ n ih =>
    intro ms hms
    cases ms with
    | nil => simp [uniqueMessagesAux, firstOccurrenceDedup]
    | cons m ms =>
      simp only [uniqueMessagesAux, List.contains, List.elem_nil, Bool.false_eq_true,
        if_false, firstOccurrenceDedup]
      rw [uniqueMessagesAux_filter_seen]
      rw [ih (ms.filter (fun x => !(msgKey x == msgKey m)))]
      exact Nat.le_trans (List.length_filter_le _ _)
        (Nat.le_of_succ_le_succ (by simpa using hms))

/-- Claim C6: `uniqueMessages` keeps exactly the first occurrence of each
`${id}-${version}` composite key, preserving the relative order of kept
elements, and on the concrete example collapses the duplicate `{x,1}`. -/
theorem claim_C6 :
    (∀ l : List Message, uniqueMessages l = firstOccurrenceDedup l) ∧
      uniqueMessages [⟨"x", "1"⟩, ⟨"x", "1"⟩, ⟨"y", "1"⟩] =
        [⟨"x", "1"⟩, ⟨"y", "1"⟩] :=
  ⟨fun l => uniqueMessagesAux_nil_eq_firstOcc l.length l (Nat.le_refl _),
   by decide⟩

/-- Claim C10: the composite key collides on distinct pairs: `{a-b, c}` and
`{a, b-c}` have the same key `a-b-c`, so the second (distinct) message is
dropped. -/
theorem claim_C10 :
    uniqueMessages [⟨"a-b", "c"⟩, ⟨"a", "b-c"⟩] = [⟨"a-b", "c"⟩] ∧
      msgKey ⟨"a-b", "c"⟩ = msgKey ⟨"a", "b-c"⟩ ∧
      (⟨"a-b", "c"⟩ : Message) ≠ ⟨"a", "b-c"⟩ := by
  refine ⟨by decide, by decide, by decide⟩

/-! ## The sort used by the lexicographic-latest fallback -/

theorem charsLe_refl : ∀ l : List Char, charsLe l l = true
  | [] => rfl
  | _ :: as => by simp [charsLe, charsLe_refl as]

theorem charsLe_total : ∀ a b : List Char, charsLe a b = true ∨ charsLe b a = true := by
  intro a
  induction a with
  | nil => intro b; left; rfl
  | cons x xs ih =>
    intro b
    cases b with
    | nil => right; rfl
    | cons y ys =>
      by_cases h : x.toNat = y.toNat
      · have h2 : y.toNat = x.toNat := h.symm
        rcases ih ys with h3 | h3
        · left; simp [charsLe, h, h3]
        · right; simp [charsLe, h2, h3]
      · rcases Nat.lt_or_ge x.toNat y.toNat with hlt | hge
        · left; simp [charsLe, h, hlt]
        · have hgt : y.toNat < x.toNat := Nat.lt_of_le_of_ne hge (fun e => h e.symm)
          have h2 : ¬ y.toNat = x.toNat := fun e => h e.symm
          right; simp [charsLe, h2, hgt]

theorem charsLe_trans : ∀ a b c : List Char,
    charsLe a b = true → charsLe b c = true → charsLe a c = true := by
  intro a
  induction a with
  | nil => intro b c _ _; rfl
  | cons x xs ih =>
    intro b c hab hbc
    cases b with
    | nil => simp [charsLe] at hab
    | cons y ys =>
      cases c with
      | nil => simp [charsLe] at hbc
      | cons z zs =>
        simp only [charsLe] at hab hbc ⊢
        by_cases hxy : x.toNat = y.toNat <;> by_cases hyz : y.toNat = z.toNat
        · rw [if_pos hxy] at hab
          rw [if_pos hyz] at hbc
          rw [if_pos (hxy.trans hyz)]
          exact ih ys zs hab hbc
        · rw [if_pos hxy] at hab
          rw [if_neg hyz] at hbc
          have h2 : y.toNat < z.toNat := of_decide_eq_true hbc
          rw [if_neg (show ¬ x.toNat = z.toNat by omega)]
          simp [show x.toNat < z.toNat by omega]
        · rw [if_neg hxy] at hab
          have h1 : x.toNat < y.toNat := of_decide_eq_true hab
          rw [if_neg (show ¬ x.toNat = z.toNat by omega)]
          simp [show x.toNat < z.toNat by omega]
        · rw [if_neg hxy] at hab
          rw [if_neg hyz] at hbc
          have h1 : x.toNat < y.toNat := of_decide_eq_true hab
          have h2 : y.toNat < z.toNat := of_decide_eq_true hbc
          rw [if_neg (show ¬ x.toNat = z.toNat by omega)]
          simp [show x.toNat < z.toNat by omega]

theorem leVer_refl (a : ParsedFile) : leVer a a = true := charsLe_refl _

theorem leVer_total (a b : ParsedFile) : leVer a b = true ∨ leVer b a = true :=
  charsLe_total _ _

theorem leVer_trans (a b c : ParsedFile) :
    leVer a b = true → leVer b c = true → leVer a c = true :=
  charsLe_trans _ _ _

theorem mem_insertLe {α : Type} (le : α → α → Bool) (a x : α) :
    ∀ l, x ∈ insertLe le a l ↔ x = a ∨ x ∈ l := by
  intro l
  induction l with
  | nil => simp [insertLe]
  | cons b bs ih =>
    cases hle : le b a
    · simp [insertLe, hle]
    · simp [insertLe, hle, ih]
      tauto

theorem pairwise_insertLe {α : Type} (le : α → α → Bool)
    (htot : ∀ a b, le a b = true ∨ le b a = true)
    (htrans : ∀ a b c, le a b = true → le b c = true → le a c = true) (a : α) :
    ∀ l, l.Pairwise (fun x y => le x y = true) →
      (insertLe le a l).Pairwise (fun x y => le x y = true) := by
  intro l
  induction l with
  | nil => intro _; simp [insertLe]
  | cons b bs ih =>
    intro h
    rw [List.pairwise_cons] at h
    obtain ⟨hb, hbs⟩ := h
    cases hle : le b a
    · have hab : le a b = true := by
        rcases htot a b with h1 | h1
        · exact h1
        · simp [h1] at hle
      simp only [insertLe, hle, Bool.false_eq_true, if_false]
      refine List.Pairwise.cons ?_ (List.Pairwise.cons hb hbs)
      intro x hx
      rcases List.mem_cons.mp hx with rfl | hx
      · exact hab
      · exact htrans a b x hab (hb x hx)
    · simp only [insertLe, hle, if_true]
      refine List.Pairwise.cons ?_ (ih hbs)
      intro x hx
      rcases (mem_insertLe le a x bs).mp hx with rfl | hx
      · exact hle
      · exact hb x hx

theorem pairwise_sortGo {α : Type} (le : α → α → Bool)
    (htot : ∀ a b, le a b = true ∨ le b a = true)
    (htrans : ∀ a b c, le a b = true → le b c = true → le a c = true) :
    ∀ (l acc : List α), acc.Pairwise (fun x y => le x y = true) →
      (l.foldl (fun acc2 a => insertLe le a acc2) acc).Pairwise
        (fun x y => le x y = true) := by
  intro l
  induction l with
  | nil => intro acc h; simpa using h
  | cons a t ih =>
    intro acc h
    rw [List.foldl_cons]
    exact ih _ (pairwise_insertLe le htot htrans a acc h)

theorem mem_sortGo {α : Type} (le : α → α → Bool) :
    ∀ (l acc : List α) (x : α),
      x ∈ l.foldl (fun acc2 a => insertLe le a acc2) acc ↔ x ∈ l ∨ x ∈ acc := by
  intro l
  induction l with
  | nil => intro acc x; simp
  | cons a t ih =>
    intro acc x
    rw [List.foldl_cons, ih, mem_insertLe]
    simp [List.mem_cons]
    tauto

theorem sortByLe_pairwise {α : Type} (le : α → α → Bool)
    (htot : ∀ a b, le a b = true ∨ le b a = true)
    (htrans : ∀ a b c, le a b = true → le b c = true → le a c = true) (l : List α) :
    (sortByLe le l).Pairwise (fun x y => le x y = true) :=
  pairwise_sortGo le htot htrans l [] (by simp)

theorem mem_sortByLe {α : Type} (le : α → α → Bool) (l : List α) (x : α) :
    x ∈ sortByLe le l ↔ x ∈ l := by
  unfold sortByLe
  rw [mem_sortGo]
  simp

theorem length_insertLe {α : Type} (le : α → α → Bool) (a : α) :
    ∀ l, (insertLe le a l).length = l.length + 1 := by
  intro l
  induction l with
  | nil => rfl
  | cons b bs ih => cases hle : le b a <;> simp [insertLe, hle, ih]

theorem length_sortGo {α : Type} (le : α → α → Bool) :
    ∀ (l acc : List α),
      (l.foldl (fun acc2 a => insertLe le a acc2) acc).length = l.length + acc.length := by
  intro l
  induction l with
  | nil => intro acc; simp
  | cons a t ih =>
    intro acc
    rw [List.foldl_cons, ih, length_insertLe]
    simp
    omega

theorem sortByLe_eq_nil {α : Type} (le : α → α → Bool) (l : List α) :
    sortByLe le l = [] ↔ l = [] := by
  constructor
  · intro h
    have := length_sortGo le l []
    unfold sortByLe at h
    rw [h] at this
    simp at this
    exact List.eq_nil_of_length_eq_zero this.symm
  · intro h; subst h; rfl

theorem getLastOpt_mem {α : Type} : ∀ (l : List α) (x : α), l.getLast? = some x → x ∈ l := by
  intro l
  induction l with
  | nil => intro x h; simp at h
  | cons a t ih =>
    intro x h
    cases t with
    | nil =>
      simp only [List.getLast?_singleton, Option.some.injEq] at h
      simp [h]
    | cons b t2 =>
      rw [List.getLast?_cons_cons] at h
      exact List.mem_cons_of_mem a (ih x h)

theorem getLastOpt_eq_none {α : Type} : ∀ l : List α, l.getLast? = none ↔ l = [] := by
  intro l
  induction l with
  | nil => simp
  | cons a t ih =>
    cases t with
    | nil => simp [List.getLast?_singleton]
    | cons b t2 =>
      rw [List.getLast?_cons_cons]
      simp only [ih]
      simp

theorem pairwise_getLast_max {α : Type} (R : α → α → Prop) (hrefl : ∀ a, R a a) :
    ∀ (l : List α) (x : α), l.Pairwise R → l.getLast? = some x → ∀ y ∈ l, R y x := by
  intro l
  induction l with
  | nil => intro x _ h; simp at h
  | cons a t ih =>
    intro x hp hl y hy
    rw [List.pairwise_cons] at hp
    obtain ⟨ha, ht⟩ := hp
    cases t with
    | nil =>
      simp only [List.getLast?_singleton, Option.some.injEq] at hl
      rcases List.mem_singleton.mp hy with rfl
      rw [← hl]
      exact hrefl y
    | cons b t2 =>
      rw [List.getLast?_cons_cons] at hl
      rcases List.mem_cons.mp hy with rfl | hy
      · exact ha x (getLastOpt_mem _ x hl)
      · exact ih x ht hl y hy

/-! ## Claim C4: the lexicographic-latest fallback -/

/-- Claim C4: when the version argument is truthy but not simultaneously a
valid semver range and a valid concrete semver version, `findFileById`
returns the path of the last element of the candidates sorted ascending by
their version strings — a candidate whose version is lexicographically
greatest — and is absent exactly when the candidate set is empty; on the
concrete non-semver example `latest-draft` it picks B (`b-draft`). -/
theorem claim_C4 :
    (∀ (fsys : FS) (dir idv v : String),
      (v == "") = false →
      (semverValidRange v && semverValid v) = false →
      (∀ p ∈ candidateFiles fsys dir idv, fmHasVersion (readFile fsys p) = true) →
      (findFileById fsys dir idv (some v) = none ↔
          parsedCandidates fsys dir idv = []) ∧
        (∀ p, findFileById fsys dir idv (some v) = some p →
          ∃ c, c ∈ parsedCandidates fsys dir idv ∧ c.path = p ∧
            ∀ c2 ∈ parsedCandidates fsys dir idv, leVer c2 c = true)) ∧
      findFileById draftFs ("dom") ("order") (some ("latest-draft")) =
        some ("dom/b/index.md") := by
  constructor
  · intro fsys dir idv v hv hcond _hfm
    have hform : findFileById fsys dir idv (some v) =
        ((sortByLe leVer (parsedCandidates fsys dir idv)).getLast?).map
          (fun c => c.path) := by
      simp [findFileById, isFalsy, hv, hcond]
    rw [hform]
    constructor
    · rw [Option.map_eq_none']
      rw [getLastOpt_eq_none]
      exact sortByLe_eq_nil leVer (parsedCandidates fsys dir idv)
    · intro p hp
      rw [Option.map_eq_some'] at hp
      obtain ⟨c, hc, hcp⟩ := hp
      refine ⟨c, ?_, hcp, ?_⟩
      · exact (mem_sortByLe leVer _ c).mp (getLastOpt_mem _ c hc)
      · intro c2 hc2
        exact pairwise_getLast_max (fun x y => leVer x y = true) leVer_refl _ c
          (sortByLe_pairwise leVer leVer_total leVer_trans _) hc c2
          ((mem_sortByLe leVer _ c2).mpr hc2)
  · decide

/-- Witness for C4's universal part: at the concrete draft catalog the
returned path `dom/b/index.md` is a candidate whose version is
lexicographically maximal. -/
theorem claim_C4_witness :
    ∃ c, c ∈ parsedCandidates draftFs ("dom") ("order") ∧
      c.path = ("dom/b/index.md") ∧
      ∀ c2 ∈ parsedCandidates draftFs ("dom") ("order"), leVer c2 c = true :=
  (claim_C4.1 draftFs ("dom") ("order") ("latest-draft") (by decide) (by decide)
      (by decide)).2 ("dom/b/index.md") claim_C4.2

/-! ## Claim C3: the no-version branch -/

theorem findOpt_first {α : Type} (p : α → Bool) :
    ∀ (l : List α) (x : α), l.find? p = some x →
      p x = true ∧ ∃ pre post, l = pre ++ x :: post ∧ ∀ q ∈ pre, p q = false := by
  intro l
  induction l with
  | nil => intro x h; simp at h
  | cons a t ih =>
    intro x h
    cases ha : p a
    · simp only [List.find?, ha] at h
      obtain ⟨hx, pre, post, heq, hpre⟩ := ih x h
      refine ⟨hx, a :: pre, post, by simp [heq], ?_⟩
      intro q hq
      rcases List.mem_cons.mp hq with rfl | hq
      · exact ha
      · exact hpre q hq
    · simp only [List.find?, ha, Option.some.injEq] at h
      subst h
      exact ⟨ha, [], t, rfl, by simp⟩

theorem findOpt_eq_none {α : Type} (p : α → Bool) :
    ∀ l : List α, l.find? p = none ↔ ∀ x ∈ l, p x = false := by
  intro l
  induction l with
  | nil => simp
  | cons a t ih => cases ha : p a <;> simp [List.find?, ha, ih]

/-- Claim C3, counterexample: the no-version branch tests `versioned` as a
substring of the path, not as a path segment.  Here the only candidate's
path contains `versioned` only inside the segment `my-versioned`, so the
claim would return that path, yet `findFileById` returns `none`. -/
theorem claim_C3_counterexample :
    findFileById substrFs ("cat") ("order") none = none ∧
      candidateFiles substrFs ("cat") ("order") = [("cat/my-versioned/index.md")] ∧
      (splitSegs ("cat/my-versioned/index.md")).contains ("versioned") = false := by
  refine ⟨by decide, by decide, by decide⟩

/-- Claim C3 (amended): with no version argument, `findFileById` returns the
first candidate path that does not contain `versioned` as a substring
(`path.includes('versioned')`), and is absent exactly when every candidate
path contains that substring. -/
theorem claim_C3 (fsys : FS) (dir idv : String) :
    (∀ p, findFileById fsys dir idv none = some p →
      strContains p ("versioned") = false ∧
      ∃ pre post, candidateFiles fsys dir idv = pre ++ p :: post ∧
        ∀ q ∈ pre, strContains q ("versioned") = true) ∧
    (findFileById fsys dir idv none = none ↔
      ∀ q ∈ candidateFiles fsys dir idv, strContains q ("versioned") = true) := by
  have hform : findFileById fsys dir idv none =
      (candidateFiles fsys dir idv).find? (fun p => !(strContains p ("versioned"))) := by
    simp [findFileById, isFalsy]
  rw [hform]
  constructor
  · intro p hp
    obtain ⟨hpred, pre, post, heq, hpre⟩ := findOpt_first _ _ p hp
    refine ⟨by simpa using hpred, pre, post, heq, ?_⟩
    intro q hq
    simpa using hpre q hq
  · rw [findOpt_eq_none]
    constructor <;> intro h q hq
    · simpa using h q hq
    · simpa using h q hq

/-- Witness for C3's amended theorem: the canonical copy is returned and
every candidate before it lies under a `versioned` path. -/
theorem claim_C3_witness :
    strContains ("cat/latest/index.md") ("versioned") = false ∧
      ∃ pre post, candidateFiles latestFs ("cat") ("order") =
        pre ++ ("cat/latest/index.md") :: post ∧
        ∀ q ∈ pre, strContains q ("versioned") = true :=
  (claim_C3 latestFs ("cat") ("order")).1 ("cat/latest/index.md") (by decide)

/-! ## Claim C7: the `node_modules` exclusion -/

/-- Claim C7, counterexample: the ignore pattern is `node_modules/**`, which
only matches paths whose first segment is `node_modules`; a file under a
nested `node_modules` directory is returned, although its path contains a
`node_modules` segment. -/
theorem claim_C7_counterexample :
    getFiles nestedFs ("a/**/index.md") = [("a/node_modules/index.md")] ∧
      (splitSegs ("a/node_modules/index.md")).contains ("node_modules") = true := by
  refine ⟨by decide, by decide⟩

/-- Claim C7 (amended): `getFiles` excludes exactly the paths matched by the
glob `node_modules/**` — those under a top-level `node_modules` directory;
in particular a pattern matching only files under a top-level `node_modules`
returns the empty sequence. -/
theorem claim_C7 :
    (∀ (fsys : FS) (pattern p : String),
      p ∈ getFiles fsys pattern → globMatch ("node_modules/**") p = false) ∧
      getFiles nmFs ("node_modules/**/index.md") = [] := by
  constructor
  · intro fsys pattern p hp
    unfold getFiles at hp
    rw [List.mem_filter] at hp
    have h2 : globMatch pattern p = true ∧ globMatch ("node_modules/**") p = false := by
      simpa using hp.2
    exact h2.2
  · decide

/-- Witness for C7's amended theorem: the nested `node_modules` path that
`getFiles` returns is indeed not matched by the ignore pattern. -/
theorem claim_C7_witness :
    globMatch ("node_modules/**") ("a/node_modules/index.md") = false :=
  claim_C7.1 nestedFs ("a/**/index.md") ("a/node_modules/index.md") (by decide)

/-! ## Claim C8: `copyDir` -/

/-- First-defined-wins choice, the shape `lookupF` takes on an append. -/
def oor {α : Type} : Option α → Option α → Option α
  | some x, _ => some x
  | none, b => b

theorem lookup_append (l1 l2 : FS) (p : String) :
    lookupF (l1 ++ l2) p = oor (lookupF l1 p) (lookupF l2 p) := by
  induction l1 with
  | nil => rfl
  | cons e t ih => cases he : e.1 == p <;> simp [lookupF, he, ih, oor]

theorem lookup_filter_keep (keep : String × String → Bool) (p : String) :
    ∀ l : FS, (∀ e ∈ l, e.1 = p → keep e = true) →
      lookupF (l.filter keep) p = lookupF l p := by
  intro l
  induction l with
  | nil => intro _; rfl
  | cons e t ih =>
    intro h
    cases hk : keep e
    · have hne : (e.1 == p) = false := by
        cases he : e.1 == p
        · rfl
        · rw [h e (List.mem_cons_self e t) (eq_of_beq he)] at hk
          simp at hk
      simp only [List.filter_cons, hk, Bool.false_eq_true, if_false, lookupF, hne]
      exact ih (fun e2 he2 => h e2 (List.mem_cons_of_mem e he2))
    · simp only [List.filter_cons, hk, if_true, lookupF]
      cases he : e.1 == p
      · simp only [Bool.false_eq_true, if_false]
        exact ih (fun e2 he2 => h e2 (List.mem_cons_of_mem e he2))
      · simp

theorem lookup_none_notin (p : String) :
    ∀ l : FS, (∀ e ∈ l, (e.1 == p) = false) → lookupF l p = none := by
  intro l
  induction l with
  | nil => intro _; rfl
  | cons e t ih =>
    intro h
    simp only [lookupF, h e (List.mem_cons_self e t), Bool.false_eq_true, if_false]
    exact ih (fun e2 he2 => h e2 (List.mem_cons_of_mem e he2))

theorem any_path_eq_isSome (p : String) :
    ∀ l : FS, (l.any (fun e => e.1 == p)) = (lookupF l p).isSome := by
  intro l
  induction l with
  | nil => rfl
  | cons e t ih => cases he : e.1 == p <;> simp [lookupF, he, ih]

theorem isPre_append_self : ∀ l t : List Char, isPre l (l ++ t) = true := by
  intro l t
  induction l with
  | nil => rfl
  | cons a l ih => simp [isPre, ih]

theorem isPre_exists : ∀ l t : List Char, isPre l t = true → ∃ u, t = l ++ u := by
  intro l
  induction l with
  | nil => intro t _; exact ⟨t, rfl⟩
  | cons a l ih =>
    intro t h
    cases t with
    | nil => simp [isPre] at h
    | cons b t =>
      simp only [isPre, Bool.and_eq_true] at h
      obtain ⟨hab, h2⟩ := h
      obtain ⟨u, hu⟩ := ih t h2
      exact ⟨u, by rw [eq_of_beq hab, hu]; rfl⟩

theorem pathUnder_self_append (dir r : String) :
    pathUnder dir (dir ++ "/" ++ r) = true := by
  show isPre (dir.toList ++ ['/']) (dir ++ "/" ++ r).toList = true
  have hdata : (dir ++ "/" ++ r).toList = (dir.toList ++ ['/']) ++ r.toList := by
    show (dir ++ "/" ++ r).data = (dir.data ++ ['/']) ++ r.data
    rw [String.data_append, String.data_append]
  rw [hdata]
  exact isPre_append_self _ _

theorem strAppend_inj (dir x y : String) (h : dir ++ "/" ++ x = dir ++ "/" ++ y) : x = y := by
  rw [String.ext_iff, String.data_append, String.data_append, String.data_append,
    String.data_append, List.append_assoc, List.append_assoc] at h
  exact String.ext_iff.mpr (List.append_cancel_left (List.append_cancel_left h))

theorem relBelow_self_append (dir r : String) :
    relBelow dir (dir ++ "/" ++ r) = r := by
  show String.mk ((dir ++ "/" ++ r).toList.drop (dir.toList.length + 1)) = r
  have hdata : (dir ++ "/" ++ r).toList = (dir.toList ++ ['/']) ++ r.toList := by
    show (dir ++ "/" ++ r).data = (dir.data ++ ['/']) ++ r.data
    rw [String.data_append, String.data_append]
  rw [hdata]
  have hlen : dir.toList.length + 1 = (dir.toList ++ ['/']).length := by
    simp
  rw [hlen, List.drop_left]
  exact String.ext_iff.mpr rfl

theorem pathUnder_decompose (src q : String) (h : pathUnder src q = true) :
    q = src ++ "/" ++ relBelow src q := by
  obtain ⟨u, hu⟩ := isPre_exists _ _ h
  rw [String.ext_iff]
  show q.data = (src ++ "/" ++ relBelow src q).data
  rw [String.data_append, String.data_append]
  have hq : q.data = (src.data ++ ['/']) ++ u := hu
  have hrel : (relBelow src q).data = u := by
    show (q.toList.drop (src.toList.length + 1)) = u
    have hlen : src.toList.length + 1 = (src.toList ++ ['/']).length := by simp
    show (q.data.drop (src.toList.length + 1)) = u
    rw [hq, hlen]
    exact List.drop_left _ _
  rw [hrel, hq]

theorem lookup_copied (src dst r : String) :
    ∀ fsys : FS,
      lookupF ((fsys.filter (fun e => pathUnder src e.1)).map
          (fun e => (dst ++ "/" ++ relBelow src e.1, e.2))) (dst ++ "/" ++ r) =
        lookupF fsys (src ++ "/" ++ r) := by
  intro fsys
  induction fsys with
  | nil => rfl
  | cons e t ih =>
    cases hu : pathUnder src e.1
    · have hne : (e.1 == (src ++ "/" ++ r)) = false := by
        cases he : e.1 == (src ++ "/" ++ r)
        · rfl
        · rw [eq_of_beq he, pathUnder_self_append] at hu
          simp at hu
      simp only [List.filter_cons, hu, Bool.false_eq_true, if_false]
      rw [ih]
      simp only [lookupF, hne, Bool.false_eq_true, if_false]
    · have hdec := pathUnder_decompose src e.1 hu
      have hkey : ((dst ++ "/" ++ relBelow src e.1) == (dst ++ "/" ++ r)) =
          (e.1 == (src ++ "/" ++ r)) := by
        cases he : e.1 == (src ++ "/" ++ r)
        · cases hd : (dst ++ "/" ++ relBelow src e.1) == (dst ++ "/" ++ r)
          · rfl
          · have h3 : relBelow src e.1 = r := strAppend_inj dst _ _ (eq_of_beq hd)
            rw [← h3, ← hdec, beq_self_eq_true] at he
            exact he
        · have h3 : relBelow src e.1 = r := by
            rw [eq_of_beq he, relBelow_self_append]
          rw [h3, beq_self_eq_true]
      simp only [List.filter_cons, hu, if_true, List.map_cons, lookupF, hkey]
      cases he : e.1 == (src ++ "/" ++ r) <;> simp [ih]

theorem lookup_copied_none (src dst q : String) (hq : pathUnder dst q = false) :
    ∀ fsys : FS,
      lookupF ((fsys.filter (fun e => pathUnder src e.1)).map
          (fun e => (dst ++ "/" ++ relBelow src e.1, e.2))) q = none := by
  intro fsys
  apply lookup_none_notin
  intro e he
  rw [List.mem_map] at he
  obtain ⟨e0, _, rfl⟩ := he
  cases heq : (dst ++ "/" ++ relBelow src e0.1, e0.2).1 == q
  · rfl
  · have h2 := eq_of_beq heq
    rw [← h2, pathUnder_self_append] at hq
    simp at hq

theorem copyTree_lookup_other (fsys : FS) (src dst q : String)
    (hq : pathUnder dst q = false) :
    lookupF (copyTree fsys src dst) q = lookupF fsys q := by
  simp only [copyTree]
  rw [lookup_append, lookup_copied_none src dst q hq fsys]
  show oor none _ = _
  simp only [oor]
  rw [lookup_filter_keep]
  intro e _ hep
  rw [hep, any_path_eq_isSome, lookup_copied_none src dst q hq fsys]
  rfl

theorem copyTree_lookup_under (fsys : FS) (src dst r : String) :
    lookupF (copyTree fsys src dst) (dst ++ "/" ++ r) =
      oor (lookupF fsys (src ++ "/" ++ r)) (lookupF fsys (dst ++ "/" ++ r)) := by
  simp only [copyTree]
  rw [lookup_append, lookup_copied src dst r fsys]
  cases hsrc : lookupF fsys (src ++ "/" ++ r) with
  | some x => simp [oor]
  | none =>
    simp only [oor]
    rw [lookup_filter_keep]
    intro e _ hep
    rw [hep, any_path_eq_isSome, lookup_copied src dst r fsys, hsrc]
    rfl

theorem rmTree_lookup_other (fsys : FS) (dir q : String) (hq : pathUnder dir q = false) :
    lookupF (rmTree fsys dir) q = lookupF fsys q := by
  unfold rmTree
  rw [lookup_filter_keep]
  intro e _ hep
  rw [hep, hq]
  rfl

theorem rmTree_all (fsys : FS) (dir : String) :
    (rmTree fsys dir).all (fun e => !(pathUnder dir e.1)) = true := by
  rw [List.all_eq_true]
  intro e he
  rw [rmTree, List.mem_filter] at he
  exact he.2

theorem lookup_none_of_all_out (fsys : FS) (d r : String)
    (h : ∀ e ∈ fsys, pathUnder d e.1 = false) :
    lookupF fsys (d ++ "/" ++ r) = none := by
  apply lookup_none_notin
  intro e he
  cases heq : e.1 == (d ++ "/" ++ r)
  · rfl
  · have h2 := h e he
    rw [eq_of_beq heq, pathUnder_self_append] at h2
    simp at h2

/-- Two directories, neither of which contains the other (nor equal). -/
def dirsSeparate (a b : String) : Bool :=
  !(isPre (a.toList ++ ['/']) (b.toList ++ ['/'])) &&
    !(isPre (b.toList ++ ['/']) (a.toList ++ ['/']))

theorem isPre_append_or : ∀ p l1 l2 : List Char,
    isPre p (l1 ++ l2) = true → isPre p l1 = true ∨ isPre l1 p = true := by
  intro p
  induction p with
  | nil => intro l1 l2 _; left; rfl
  | cons a p ih =>
    intro l1 l2 h
    cases l1 with
    | nil => right; rfl
    | cons b t =>
      simp only [List.cons_append, isPre, Bool.and_eq_true] at h
      obtain ⟨hab, h2⟩ := h
      rcases ih t l2 h2 with h3 | h3
      · left; simp [isPre, hab, h3]
      · right
        have hba : (b == a) = true := by rw [eq_of_beq hab]; exact beq_self_eq_true b
        simp [isPre, hba, h3]

theorem pathUnder_sep (a b r : String) (hsep : dirsSeparate a b = true) :
    pathUnder a (b ++ "/" ++ r) = false := by
  have hspec : isPre (a.toList ++ ['/']) (b.toList ++ ['/']) = false ∧
      isPre (b.toList ++ ['/']) (a.toList ++ ['/']) = false := by
    simpa [dirsSeparate] using hsep
  cases hq : pathUnder a (b ++ "/" ++ r)
  · rfl
  · exfalso
    have hdata : (b ++ "/" ++ r).toList = (b.toList ++ ['/']) ++ r.toList := by
      show (b ++ "/" ++ r).data = (b.data ++ ['/']) ++ r.data
      rw [String.data_append, String.data_append]
    have hq2 : isPre (a.toList ++ ['/']) ((b.toList ++ ['/']) ++ r.toList) = true := by
      rw [← hdata]
      exact hq
    rcases isPre_append_or _ _ _ hq2 with h3 | h3
    · rw [hspec.1] at h3; cases h3
    · rw [hspec.2] at h3; cases h3

/-- Claim C8, counterexample: `copy` with overwrite merges into the target
but never deletes pre-existing target entries, so after `copyDir` the target
tree need not be byte-identical to the source tree: the stale file
`t/extra` survives with no counterpart `s/extra` in the source. -/
theorem claim_C8_counterexample :
    lookupF (copyDir preTargetFs ("c") ("s") ("t")) ("t/extra") = some ("y") ∧
      lookupF (copyDir preTargetFs ("c") ("s") ("t")) ("s/extra") = none := by
  refine ⟨by decide, by decide⟩

/-- Claim C8 (amended): when the target directory and the staging directory
`catalogDir/tmp` hold no files initially and source, target and staging
directory are pairwise non-nested, the completed `copyDir` leaves the target
tree byte-identical to the source tree, and no file remains under the
staging directory (the last conjunct holds unconditionally). -/
theorem claim_C8 :
    (∀ (fsys : FS) (catDir src tgt : String),
      (∀ e ∈ fsys, pathUnder (catDir ++ "/tmp") e.1 = false) →
      (∀ e ∈ fsys, pathUnder tgt e.1 = false) →
      dirsSeparate (catDir ++ "/tmp") tgt = true →
      dirsSeparate (catDir ++ "/tmp") src = true →
      dirsSeparate tgt src = true →
      (∀ r, lookupF (copyDir fsys catDir src tgt) (tgt ++ "/" ++ r) =
          lookupF (copyDir fsys catDir src tgt) (src ++ "/" ++ r))) ∧
    (∀ (fsys : FS) (catDir src tgt : String),
      (copyDir fsys catDir src tgt).all
        (fun e => !(pathUnder (catDir ++ "/tmp") e.1)) = true) := by
  constructor
  · intro fsys catDir src tgt h1 h2 hsepTT hsepTS hsepTgtS r
    have hTgtNotTmp : pathUnder (catDir ++ "/tmp") (tgt ++ "/" ++ r) = false :=
      pathUnder_sep _ _ _ hsepTT
    have hSrcNotTmp : pathUnder (catDir ++ "/tmp") (src ++ "/" ++ r) = false :=
      pathUnder_sep _ _ _ hsepTS
    have hSrcNotTgt : pathUnder tgt (src ++ "/" ++ r) = false :=
      pathUnder_sep _ _ _ hsepTgtS
    have hfinT : lookupF (copyDir fsys catDir src tgt) (tgt ++ "/" ++ r) =
        lookupF fsys (src ++ "/" ++ r) := by
      simp only [copyDir]
      rw [rmTree_lookup_other _ _ _ hTgtNotTmp]
      rw [copyTree_lookup_under]
      rw [copyTree_lookup_under]
      rw [copyTree_lookup_other _ _ _ _ hTgtNotTmp]
      rw [lookup_none_of_all_out fsys (catDir ++ "/tmp") r h1]
      rw [lookup_none_of_all_out fsys tgt r h2]
      cases lookupF fsys (src ++ "/" ++ r) <;> rfl
    have hfinS : lookupF (copyDir fsys catDir src tgt) (src ++ "/" ++ r) =
        lookupF fsys (src ++ "/" ++ r) := by
      simp only [copyDir]
      rw [rmTree_lookup_other _ _ _ hSrcNotTmp]
      rw [copyTree_lookup_other _ _ _ _ hSrcNotTgt]
      rw [copyTree_lookup_other _ _ _ _ hSrcNotTmp]
    rw [hfinT, hfinS]
  · intro fsys catDir src tgt
    simp only [copyDir]
    exact rmTree_all _ _

/-- Witness for C8's amended theorem: the single copied file reads back from
the target with the source's content. -/
theorem claim_C8_witness :
    lookupF (copyDir oneFileFs ("c") ("s") ("t")) ("t" ++ "/" ++ "a") =
      lookupF (copyDir oneFileFs ("c") ("s") ("t")) ("s" ++ "/" ++ "a") :=
  claim_C8.1 oneFileFs ("c") ("s") ("t") (by decide) (by decide) (by decide)
    (by decide) (by decide) ("a")
